import Mathlib

/-!
Verification of the axial vector algebra and orientation-statistics engine of
the ASPG structural-geology toolkit.  The Python source stores 3-vectors of
floats; the embedding models float components as real numbers.  Degree-based
trigonometric helpers (`sind`, `cosd`, `asind`, `acosd`, `atan2d`) and the
azimuth/inclination conversions (`getldc`, `getfdc`, `Lin.dd`, `Fol.dd`) are
translated from `apsg.py`; numpy's `arctan2 y x` is modelled as the principal
argument of the complex number `x + y*I`, which agrees with it on all of ℝ²,
and Python's float `%` as `pymod`.
-/

open Real

/-- Three-component vector of reals, modelling the components of `Vec3`. -/
structure V3 where
  x : ℝ
  y : ℝ
  z : ℝ

/-- Zero vector. -/
def v3zero : V3 := ⟨0, 0, 0⟩

/-- Dot product (`Vec3.__mul__`, `np.dot`). -/
def dot3 (a b : V3) : ℝ := a.x * b.x + a.y * b.y + a.z * b.z

/-- Component-wise addition (numpy `+` on `Vec3`). -/
def add3 (a b : V3) : V3 := ⟨a.x + b.x, a.y + b.y, a.z + b.z⟩

/-- Component-wise subtraction (numpy `-` on `Vec3`). -/
def sub3 (a b : V3) : V3 := ⟨a.x - b.x, a.y - b.y, a.z - b.z⟩

/-- Component-wise negation (numpy unary `-` on `Vec3`). -/
def neg3 (a : V3) : V3 := ⟨-a.x, -a.y, -a.z⟩

/-- Scalar multiple (numpy scalar `*` array). -/
def smul3 (r : ℝ) (a : V3) : V3 := ⟨r * a.x, r * a.y, r * a.z⟩

/-- Cross product (`np.cross`, `Vec3.cross`). -/
def cross3 (a b : V3) : V3 :=
  ⟨a.y * b.z - a.z * b.y, a.z * b.x - a.x * b.z, a.x * b.y - a.y * b.x⟩

/-- Magnitude: `Vec3.__abs__` is `np.sqrt(self * self)`. -/
noncomputable def abs3 (a : V3) : ℝ := Real.sqrt (dot3 a a)

/-- Unit vector: `Vec3.getuv` is `self / abs(self)`. -/
noncomputable def getuv (a : V3) : V3 := smul3 (abs3 a)⁻¹ a

/-- Degree sine: `sind = lambda x: np.sin(np.deg2rad(x))`. -/
noncomputable def sind (x : ℝ) : ℝ := Real.sin (x * π / 180)

/-- Degree cosine: `cosd = lambda x: np.cos(np.deg2rad(x))`. -/
noncomputable def cosd (x : ℝ) : ℝ := Real.cos (x * π / 180)

/-- Degree arcsine: `asind = lambda x: np.rad2deg(np.arcsin(x))`. -/
noncomputable def asind (x : ℝ) : ℝ := Real.arcsin x * 180 / π

/-- Degree arccosine: `acosd = lambda x: np.rad2deg(np.arccos(x))`. -/
noncomputable def acosd (x : ℝ) : ℝ := Real.arccos x * 180 / π

/-- Degree arctangent of two arguments: `atan2d(x1, x2)` is
`np.rad2deg(np.arctan2(x1, x2))`; `np.arctan2 y x` is the principal
argument of the point `(x, y)`, modelled by `Complex.arg (x + y*I)`. -/
noncomputable def atan2d (y x : ℝ) : ℝ :=
  Complex.arg ((x : ℂ) + (y : ℂ) * Complex.I) * 180 / π

/-- Python float modulo: `a % n = a - n * floor(a / n)` (sign of divisor). -/
noncomputable def pymod (a n : ℝ) : ℝ := a - n * ⌊a / n⌋

/-- Lineation direction cosines:
`getldc = lambda u, v: (cosd(u)*cosd(v), sind(u)*cosd(v), sind(v))`. -/
noncomputable def getldc (u v : ℝ) : V3 :=
  ⟨cosd u * cosd v, sind u * cosd v, sind v⟩

/-- Foliation (pole) direction cosines:
`getfdc = lambda u, v: (-cosd(u)*sind(v), -sind(u)*sind(v), cosd(v))`. -/
noncomputable def getfdc (u v : ℝ) : V3 :=
  ⟨-cosd u * sind v, -sind u * sind v, cosd v⟩

/-- Azimuth/inclination of a lineation, `Lin.dd`: normalize, flip to the
lower hemisphere when the z component is negative, then extract angles. -/
noncomputable def linDD (a : V3) : ℝ × ℝ :=
  let n := getuv a
  let m := if n.z < 0 then neg3 n else n
  (pymod (atan2d m.y m.x) 360, asind m.z)

/-- Azimuth/inclination of a foliation, `Fol.dd`: normalize, flip when the
z component is negative, rotate azimuth 180° and take complementary dip. -/
noncomputable def folDD (a : V3) : ℝ × ℝ :=
  let n := getuv a
  let m := if n.z < 0 then neg3 n else n
  (pymod (atan2d m.y m.x + 180) 360, 90 - asind m.z)

/-- Axial addition `Lin.__add__`/`Lin.__iadd__`: flip the right operand when
the dot product is negative, then add. -/
noncomputable def linAdd (a b : V3) : V3 :=
  if dot3 a b < 0 then add3 a (neg3 b) else add3 a b

/-- Axial subtraction `Lin.__sub__`/`Lin.__isub__`. -/
noncomputable def linSub (a b : V3) : V3 :=
  if dot3 a b < 0 then sub3 a (neg3 b) else sub3 a b

/-- Axial addition `Fol.__add__`/`Fol.__iadd__` (same rule as `Lin`). -/
noncomputable def folAdd (a b : V3) : V3 :=
  if dot3 a b < 0 then add3 a (neg3 b) else add3 a b

/-- Axial subtraction `Fol.__sub__`/`Fol.__isub__`. -/
noncomputable def folSub (a b : V3) : V3 :=
  if dot3 a b < 0 then sub3 a (neg3 b) else sub3 a b

/-- Ordinary vector equality `Vec3.__eq__`: `abs(self - other) < 1e-15`. -/
def vecEq (a b : V3) : Prop := abs3 (sub3 a b) < 1e-15

/-- Axial equality `Lin.__eq__`:
`abs(self - other) < 1e-15 or abs(self + other) < 1e-15`, where the
difference and sum use the axial sign-fixing operators of `Lin`. -/
def linEq (a b : V3) : Prop :=
  abs3 (linSub a b) < 1e-15 ∨ abs3 (linAdd a b) < 1e-15

/-- Axial equality `Fol.__eq__` (same rule as `Lin`). -/
def folEq (a b : V3) : Prop :=
  abs3 (folSub a b) < 1e-15 ∨ abs3 (folAdd a b) < 1e-15

lemma dot3_self_nonneg (a : V3) : 0 ≤ dot3 a a := by
  unfold dot3; nlinarith [sq_nonneg a.x, sq_nonneg a.y, sq_nonneg a.z]

lemma abs3_nonneg (a : V3) : 0 ≤ abs3 a := Real.sqrt_nonneg _

lemma abs3_smul (r : ℝ) (a : V3) : abs3 (smul3 r a) = |r| * abs3 a := by
  unfold abs3 smul3 dot3
  rw [show r * a.x * (r * a.x) + r * a.y * (r * a.y) + r * a.z * (r * a.z)
      = r ^ 2 * (a.x * a.x + a.y * a.y + a.z * a.z) by ring]
  rw [Real.sqrt_mul (sq_nonneg r), Real.sqrt_sq_eq_abs]

lemma abs3_v3zero : abs3 v3zero = 0 := by
  unfold abs3 dot3 v3zero; norm_num

lemma linSub_self_eq_zero (a : V3) : linSub a a = v3zero := by
  unfold linSub
  rw [if_neg (not_lt.mpr (dot3_self_nonneg a))]
  unfold sub3 v3zero; norm_num

/-- Claim C2: for every axial feature `a` (`Lin` or `Fol`), both `a == a` and
`a == -a` hold under the axial equality of `Lin.__eq__`/`Fol.__eq__`, whereas
an ordinary `Vec3` whose magnitude exceeds the `1e-15` tolerance is not equal
to its negation under `Vec3.__eq__`. -/
theorem axial_eq_symmetry :
    (∀ a : V3, linEq a a ∧ linEq a (neg3 a)) ∧
    (∀ a : V3, folEq a a ∧ folEq a (neg3 a)) ∧
    (∀ v : V3, 1e-15 < abs3 v → ¬ vecEq v (neg3 v)) := by
  have hzero : ∀ a : V3, linSub a (neg3 a) = v3zero ∨
      abs3 (linSub a (neg3 a)) = 0 := by
    intro a
    unfold linSub
    by_cases h : dot3 a (neg3 a) < 0
    · left
      rw [if_pos h]
      unfold sub3 neg3 v3zero
      norm_num
    · right
      rw [if_neg h]
      have hd : dot3 a a = 0 := by
        have h1 : -dot3 a a = dot3 a (neg3 a) := by unfold dot3 neg3; ring
        have h2 := dot3_self_nonneg a
        have h3 := not_lt.mp h
        linarith
      unfold abs3 sub3 neg3 dot3
      unfold dot3 at hd
      rw [show (a.x - -a.x) * (a.x - -a.x) + (a.y - -a.y) * (a.y - -a.y) +
          (a.z - -a.z) * (a.z - -a.z)
          = 4 * (a.x * a.x + a.y * a.y + a.z * a.z) by ring, hd]
      norm_num
  have hlin : ∀ a : V3, linEq a a ∧ linEq a (neg3 a) := by
    intro a
    constructor
    · left
      rw [linSub_self_eq_zero, abs3_v3zero]
      norm_num
    · left
      rcases hzero a with h | h
      · rw [h, abs3_v3zero]; norm_num
      · rw [h]; norm_num
  refine ⟨hlin, ?_, ?_⟩
  · intro a
    have h := hlin a
    unfold linEq linSub linAdd at h
    unfold folEq folSub folAdd
    exact h
  · intro v hv heq
    unfold vecEq at heq
    have h2 : sub3 v (neg3 v) = smul3 2 v := by
      simp only [sub3, neg3, smul3, V3.mk.injEq]
      refine ⟨by ring, by ring, by ring⟩
    rw [h2, abs3_smul] at heq
    rw [show |(2:ℝ)| = 2 by norm_num] at heq
    linarith

/-- Witness for `axial_eq_symmetry` at the unit vector `(1,0,0)`. -/
theorem axial_eq_symmetry_witness :
    1e-15 < abs3 ⟨1, 0, 0⟩ ∧ ¬ vecEq ⟨1, 0, 0⟩ (neg3 ⟨1, 0, 0⟩) := by
  have h : abs3 ⟨1, 0, 0⟩ = 1 := by
    unfold abs3 dot3; norm_num
  refine ⟨by rw [h]; norm_num, ?_⟩
  exact axial_eq_symmetry.2.2 ⟨1, 0, 0⟩ (by rw [h]; norm_num)

/-- Resultant `Dataset.resultant` of a dataset of lineations: `r = self[0]`,
which raises `IndexError` on an empty dataset (modelled by `none`), then
`r += v` with `Lin.__iadd__` over the remaining elements. -/
noncomputable def resultantLin : List V3 → Option V3
  | [] => none
  | a :: rest => some (rest.foldl linAdd a)

/-- Degree of preferred orientation `Dataset.rdegree`:
`100*(2*abs(r) - n)/n` with `r` the resultant and `n` the dataset size. -/
noncomputable def rdegreeLin (l : List V3) : Option ℝ :=
  (resultantLin l).map (fun r => 100 * (2 * abs3 r - l.length) / l.length)

/-- Claim C10: `Dataset.resultant` (and `Dataset.rdegree`) succeed on every
non-empty dataset — the fold over the tail is total — while on the empty
dataset the unconditional `self[0]` access fails (no zero vector returned). -/
theorem resultant_empty_vs_nonempty :
    resultantLin [] = none ∧ rdegreeLin [] = none ∧
    ∀ (a : V3) (rest : List V3), ∃ r : V3,
      resultantLin (a :: rest) = some r ∧
      rdegreeLin (a :: rest) =
        some (100 * (2 * abs3 r - (rest.length + 1)) / (rest.length + 1)) := by
  refine ⟨rfl, rfl, ?_⟩
  intro a rest
  refine ⟨rest.foldl linAdd a, rfl, ?_⟩
  unfold rdegreeLin resultantLin
  simp only [Option.map_some, List.length_cons]
  norm_num

lemma pymod_eq_self {x n : ℝ} (hn : 0 < n) (h0 : 0 ≤ x) (h1 : x < n) :
    pymod x n = x := by
  unfold pymod
  have hf : ⌊x / n⌋ = 0 := by
    rw [Int.floor_eq_zero_iff]
    exact ⟨div_nonneg h0 hn.le, by rwa [div_lt_one hn]⟩
  rw [hf]
  norm_num

lemma pymod_add_period {x n : ℝ} (hn : 0 < n) (h0 : -n ≤ x) (h1 : x < 0) :
    pymod x n = x + n := by
  unfold pymod
  have hf : ⌊x / n⌋ = -1 := by
    rw [Int.floor_eq_iff]
    constructor
    · push_cast
      rw [neg_le, ← neg_div, div_le_one hn]
      linarith
    · push_cast
      have := div_neg_of_neg_of_pos h1 hn
      linarith
  rw [hf]
  push_cast
  ring

lemma abs3_getldc (u v : ℝ) : abs3 (getldc u v) = 1 := by
  unfold abs3 getldc dot3 sind cosd
  have hu := Real.sin_sq_add_cos_sq (u * π / 180)
  have hv := Real.sin_sq_add_cos_sq (v * π / 180)
  rw [show Real.cos (u * π / 180) * Real.cos (v * π / 180) *
      (Real.cos (u * π / 180) * Real.cos (v * π / 180)) +
      Real.sin (u * π / 180) * Real.cos (v * π / 180) *
      (Real.sin (u * π / 180) * Real.cos (v * π / 180)) +
      Real.sin (v * π / 180) * Real.sin (v * π / 180)
      = (Real.sin (u * π / 180) ^ 2 + Real.cos (u * π / 180) ^ 2) *
        Real.cos (v * π / 180) ^ 2 + Real.sin (v * π / 180) ^ 2 by ring,
    hu, one_mul]
  rw [show Real.cos (v * π / 180) ^ 2 + Real.sin (v * π / 180) ^ 2
      = Real.sin (v * π / 180) ^ 2 + Real.cos (v * π / 180) ^ 2 by ring, hv]
  exact Real.sqrt_one

lemma abs3_getfdc (u v : ℝ) : abs3 (getfdc u v) = 1 := by
  unfold abs3 getfdc dot3 sind cosd
  have hu := Real.sin_sq_add_cos_sq (u * π / 180)
  have hv := Real.sin_sq_add_cos_sq (v * π / 180)
  rw [show -Real.cos (u * π / 180) * Real.sin (v * π / 180) *
      (-Real.cos (u * π / 180) * Real.sin (v * π / 180)) +
      -Real.sin (u * π / 180) * Real.sin (v * π / 180) *
      (-Real.sin (u * π / 180) * Real.sin (v * π / 180)) +
      Real.cos (v * π / 180) * Real.cos (v * π / 180)
      = (Real.sin (u * π / 180) ^ 2 + Real.cos (u * π / 180) ^ 2) *
        Real.sin (v * π / 180) ^ 2 + Real.cos (v * π / 180) ^ 2 by ring,
    hu, one_mul, hv]
  exact Real.sqrt_one

lemma getuv_of_abs1 {a : V3} (h : abs3 a = 1) : getuv a = a := by
  unfold getuv
  rw [h, inv_one]
  simp [smul3]

lemma asind_sind {inc : ℝ} (h2 : -90 ≤ inc) (h3 : inc ≤ 90) :
    asind (sind inc) = inc := by
  have hπ := Real.pi_pos
  unfold asind sind
  rw [Real.arcsin_sin (by nlinarith) (by nlinarith)]
  field_simp

lemma asind_cosd {inc : ℝ} (h2 : 0 ≤ inc) (h3 : inc ≤ 180) :
    asind (cosd inc) = 90 - inc := by
  have hπ := Real.pi_pos
  unfold asind cosd
  rw [← Real.sin_pi_div_two_sub, Real.arcsin_sin (by nlinarith) (by nlinarith)]
  field_simp
  ring

lemma arg_ofReal_cos_sin {θ : ℝ} (h1 : -π < θ) (h2 : θ ≤ π) :
    Complex.arg (((Real.cos θ : ℝ) : ℂ) + ((Real.sin θ : ℝ) : ℂ) * Complex.I)
      = θ := by
  rw [Complex.ofReal_cos, Complex.ofReal_sin]
  exact Complex.arg_cos_add_sin_mul_I ⟨h1, h2⟩

lemma atan2d_lin_azi {azi c : ℝ} (hc : 0 < c) (h0 : 0 ≤ azi) (h1 : azi < 360) :
    pymod (atan2d (sind azi * c) (cosd azi * c)) 360 = azi := by
  have hπ := Real.pi_pos
  unfold atan2d sind cosd
  set A := azi * π / 180 with hA
  have hfac : ((Real.cos A * c : ℝ) : ℂ) + ((Real.sin A * c : ℝ) : ℂ) * Complex.I
      = (c : ℂ) * (((Real.cos A : ℝ) : ℂ) + ((Real.sin A : ℝ) : ℂ) * Complex.I) := by
    rw [Complex.ofReal_mul, Complex.ofReal_mul]
    ring
  have hAlb : 0 ≤ A := by positivity
  have hAub : A < 2 * π := by
    rw [hA]
    nlinarith
  rw [hfac, Complex.arg_real_mul _ hc]
  by_cases hcase : A ≤ π
  · rw [arg_ofReal_cos_sin (by linarith) hcase]
    have hval : A * 180 / π = azi := by
      rw [hA]
      field_simp
    rw [hval]
    exact pymod_eq_self (by norm_num) h0 h1
  · push_neg at hcase
    rw [← Real.cos_sub_two_pi A, ← Real.sin_sub_two_pi A,
      arg_ofReal_cos_sin (by linarith) (by linarith)]
    have hval : (A - 2 * π) * 180 / π = azi - 360 := by
      rw [hA]
      field_simp
      ring
    rw [hval, pymod_add_period (by norm_num) (by linarith) (by linarith)]
    ring

lemma pymod_period {n : ℝ} (hn : 0 < n) : pymod n n = 0 := by
  unfold pymod
  rw [div_self hn.ne', Int.floor_one]
  norm_num

lemma atan2d_fol_azi {azi c : ℝ} (hc : 0 < c) (h0 : 0 ≤ azi) (h1 : azi < 360) :
    pymod (atan2d (-sind azi * c) (-cosd azi * c) + 180) 360 = azi := by
  have hπ := Real.pi_pos
  unfold atan2d sind cosd
  set A := azi * π / 180 with hA
  rw [← Real.cos_sub_pi A, ← Real.sin_sub_pi A]
  have hfac : ((Real.cos (A - π) * c : ℝ) : ℂ) +
      ((Real.sin (A - π) * c : ℝ) : ℂ) * Complex.I
      = (c : ℂ) * (((Real.cos (A - π) : ℝ) : ℂ) +
        ((Real.sin (A - π) : ℝ) : ℂ) * Complex.I) := by
    rw [Complex.ofReal_mul, Complex.ofReal_mul]
    ring
  rw [hfac, Complex.arg_real_mul _ hc]
  have hAub : A < 2 * π := by
    rw [hA]
    nlinarith
  by_cases hzero : azi = 0
  · have hA0 : A = 0 := by rw [hA, hzero]; ring
    have hm1 : ((Real.cos (A - π) : ℝ) : ℂ) +
        ((Real.sin (A - π) : ℝ) : ℂ) * Complex.I = -1 := by
      rw [hA0, zero_sub, Real.cos_neg, Real.sin_neg, Real.cos_pi, Real.sin_pi]
      norm_num
    rw [hm1, Complex.arg_neg_one]
    rw [show π * 180 / π + 180 = 360 by
      rw [mul_comm π 180, mul_div_assoc, div_self hπ.ne', mul_one]; norm_num]
    rw [pymod_period (by norm_num), hzero]
  · have hApos : 0 < A := by
      rcases lt_of_le_of_ne h0 (Ne.symm hzero) with h
      rw [hA]
      positivity
    rw [arg_ofReal_cos_sin (by linarith) (by linarith)]
    have hval : (A - π) * 180 / π + 180 = azi := by
      rw [hA]
      field_simp
    rw [hval]
    exact pymod_eq_self (by norm_num) h0 h1

/-- Claim C1: for azimuth in `[0, 360)` and inclination in `(0, 90)`, the
azimuth/inclination to direction-cosine conversions round-trip exactly:
`Lin(azi, inc).dd == (azi, inc)` via `getldc` and `Fol(azi, inc).dd ==
(azi, inc)` via `getfdc`, with no hemisphere flip triggered on this range. -/
theorem dd_dc_roundtrip (azi inc : ℝ) (h0 : 0 ≤ azi) (h1 : azi < 360)
    (h2 : 0 < inc) (h3 : inc < 90) :
    linDD (getldc azi inc) = (azi, inc) ∧ folDD (getfdc azi inc) = (azi, inc) := by
  have hπ := Real.pi_pos
  have hsin : 0 < sind inc := by
    unfold sind
    apply Real.sin_pos_of_pos_of_lt_pi <;> nlinarith
  have hcos : 0 < cosd inc := by
    unfold cosd
    apply Real.cos_pos_of_mem_Ioo
    constructor
    · nlinarith
    · nlinarith
  constructor
  · simp only [linDD]
    rw [getuv_of_abs1 (abs3_getldc azi inc)]
    simp only [getldc]
    rw [if_neg (not_lt.mpr hsin.le)]
    rw [Prod.mk.injEq]
    exact ⟨atan2d_lin_azi hcos h0 h1, asind_sind (by linarith) (by linarith)⟩
  · simp only [folDD]
    rw [getuv_of_abs1 (abs3_getfdc azi inc)]
    simp only [getfdc]
    rw [if_neg (not_lt.mpr hcos.le)]
    rw [Prod.mk.injEq]
    refine ⟨atan2d_fol_azi hsin h0 h1, ?_⟩
    rw [asind_cosd (by linarith) (by linarith)]
    ring

/-- Witness for `dd_dc_roundtrip` at azimuth 0, inclination 45. -/
theorem dd_dc_roundtrip_witness :
    (0:ℝ) ≤ 0 ∧ (0:ℝ) < 360 ∧ (0:ℝ) < 45 ∧ (45:ℝ) < 90 ∧
    linDD (getldc 0 45) = (0, 45) ∧ folDD (getfdc 0 45) = (0, 45) := by
  have h := dd_dc_roundtrip 0 45 (le_refl 0) (by norm_num) (by norm_num)
    (by norm_num)
  exact ⟨le_refl 0, by norm_num, by norm_num, by norm_num, h.1, h.2⟩

lemma cosd_45 : cosd 45 = Real.sqrt 2 / 2 := by
  unfold cosd
  rw [show (45:ℝ) * π / 180 = π / 4 by ring]
  exact Real.cos_pi_div_four

lemma sind_45 : sind 45 = Real.sqrt 2 / 2 := by
  unfold sind
  rw [show (45:ℝ) * π / 180 = π / 4 by ring]
  exact Real.sin_pi_div_four

lemma cosd_135 : cosd 135 = -(Real.sqrt 2 / 2) := by
  unfold cosd
  rw [show (135:ℝ) * π / 180 = π - π / 4 by ring]
  rw [Real.cos_pi_sub, Real.cos_pi_div_four]

lemma sind_135 : sind 135 = Real.sqrt 2 / 2 := by
  unfold sind
  rw [show (135:ℝ) * π / 180 = π - π / 4 by ring]
  rw [Real.sin_pi_sub, Real.sin_pi_div_four]

lemma cosd_225 : cosd 225 = -(Real.sqrt 2 / 2) := by
  unfold cosd
  rw [show (225:ℝ) * π / 180 = π / 4 + π by ring]
  rw [Real.cos_add_pi, Real.cos_pi_div_four]

lemma sind_225 : sind 225 = -(Real.sqrt 2 / 2) := by
  unfold sind
  rw [show (225:ℝ) * π / 180 = π / 4 + π by ring]
  rw [Real.sin_add_pi, Real.sin_pi_div_four]

lemma cosd_315 : cosd 315 = Real.sqrt 2 / 2 := by
  unfold cosd
  rw [show (315:ℝ) * π / 180 = -(π / 4) + 2 * π by ring]
  rw [Real.cos_add_two_pi, Real.cos_neg, Real.cos_pi_div_four]

lemma sind_315 : sind 315 = -(Real.sqrt 2 / 2) := by
  unfold sind
  rw [show (315:ℝ) * π / 180 = -(π / 4) + 2 * π by ring]
  rw [Real.sin_add_two_pi, Real.sin_neg, Real.sin_pi_div_four]

lemma sqrt_eight : Real.sqrt 8 = 2 * Real.sqrt 2 := by
  rw [show (8:ℝ) = 2 ^ 2 * 2 by norm_num, Real.sqrt_mul (by positivity),
    Real.sqrt_sq (by norm_num)]

/-- Claim C3: the dataset of the four lineations with azimuth/inclination
pairs (45,45), (135,45), (225,45), (315,45) has resultant `(0, 0, 2*sqrt 2)`
(computed by the left fold with the axial sign-fixing addition), whose
direction is azimuth 0, inclination 90, whose magnitude is `sqrt 8`, and
whose `rdegree` is `100*(2*sqrt 8 - 4)/4`. -/
theorem resultant_example :
    resultantLin [getldc 45 45, getldc 135 45, getldc 225 45, getldc 315 45]
      = some ⟨0, 0, 2 * Real.sqrt 2⟩ ∧
    linDD ⟨0, 0, 2 * Real.sqrt 2⟩ = (0, 90) ∧
    abs3 ⟨0, 0, 2 * Real.sqrt 2⟩ = Real.sqrt 8 ∧
    rdegreeLin [getldc 45 45, getldc 135 45, getldc 225 45, getldc 315 45]
      = some (100 * (2 * Real.sqrt 8 - 4) / 4) := by
  have h2 : Real.sqrt 2 * Real.sqrt 2 = 2 := Real.mul_self_sqrt (by norm_num)
  have hspos : (0:ℝ) < Real.sqrt 2 := Real.sqrt_pos.mpr (by norm_num)
  have e1 : getldc 45 45 = ⟨1/2, 1/2, Real.sqrt 2 / 2⟩ := by
    unfold getldc
    rw [cosd_45, sind_45, V3.mk.injEq]
    refine ⟨by linear_combination h2 / 4, by linear_combination h2 / 4, rfl⟩
  have e2 : getldc 135 45 = ⟨-(1/2), 1/2, Real.sqrt 2 / 2⟩ := by
    unfold getldc
    rw [cosd_135, sind_135, cosd_45, sind_45, V3.mk.injEq]
    refine ⟨by linear_combination -h2 / 4, by linear_combination h2 / 4, rfl⟩
  have e3 : getldc 225 45 = ⟨-(1/2), -(1/2), Real.sqrt 2 / 2⟩ := by
    unfold getldc
    rw [cosd_225, sind_225, cosd_45, sind_45, V3.mk.injEq]
    refine ⟨by linear_combination -h2 / 4, by linear_combination -h2 / 4, rfl⟩
  have e4 : getldc 315 45 = ⟨1/2, -(1/2), Real.sqrt 2 / 2⟩ := by
    unfold getldc
    rw [cosd_315, sind_315, cosd_45, sind_45, V3.mk.injEq]
    refine ⟨by linear_combination h2 / 4, by linear_combination -h2 / 4, rfl⟩
  have s1 : linAdd ⟨1/2, 1/2, Real.sqrt 2 / 2⟩ ⟨-(1/2), 1/2, Real.sqrt 2 / 2⟩
      = ⟨0, 1, Real.sqrt 2⟩ := by
    unfold linAdd dot3
    rw [if_neg (by nlinarith)]
    unfold add3
    rw [V3.mk.injEq]
    refine ⟨by norm_num, by norm_num, by ring⟩
  have s2 : linAdd ⟨0, 1, Real.sqrt 2⟩ ⟨-(1/2), -(1/2), Real.sqrt 2 / 2⟩
      = ⟨-(1/2), 1/2, 3 * Real.sqrt 2 / 2⟩ := by
    unfold linAdd dot3
    rw [if_neg (by nlinarith)]
    unfold add3
    rw [V3.mk.injEq]
    refine ⟨by norm_num, by norm_num, by ring⟩
  have s3 : linAdd ⟨-(1/2), 1/2, 3 * Real.sqrt 2 / 2⟩
      ⟨1/2, -(1/2), Real.sqrt 2 / 2⟩ = ⟨0, 0, 2 * Real.sqrt 2⟩ := by
    unfold linAdd dot3
    rw [if_neg (by nlinarith)]
    unfold add3
    rw [V3.mk.injEq]
    refine ⟨by norm_num, by norm_num, by ring⟩
  have hres : resultantLin
      [getldc 45 45, getldc 135 45, getldc 225 45, getldc 315 45]
      = some ⟨0, 0, 2 * Real.sqrt 2⟩ := by
    simp only [resultantLin, List.foldl, e1, e2, e3, e4, s1, s2, s3]
  have habs : abs3 ⟨0, 0, 2 * Real.sqrt 2⟩ = Real.sqrt 8 := by
    unfold abs3 dot3
    rw [show (0:ℝ) * 0 + 0 * 0 + 2 * Real.sqrt 2 * (2 * Real.sqrt 2)
      = 8 by linear_combination 4 * h2]
  have hdd : linDD ⟨0, 0, 2 * Real.sqrt 2⟩ = (0, 90) := by
    have huv : getuv ⟨0, 0, 2 * Real.sqrt 2⟩ = ⟨0, 0, 1⟩ := by
      unfold getuv
      rw [habs, sqrt_eight]
      unfold smul3
      rw [V3.mk.injEq]
      refine ⟨by ring, by ring, ?_⟩
      rw [inv_mul_cancel₀ (by positivity)]
    simp only [linDD]
    rw [huv]
    rw [if_neg (by norm_num)]
    have hatan : atan2d 0 0 = 0 := by
      unfold atan2d
      rw [show ((0:ℝ) : ℂ) + ((0:ℝ) : ℂ) * Complex.I = 0 by norm_num,
        Complex.arg_zero]
      norm_num
    have hasind : asind 1 = 90 := by
      unfold asind
      rw [Real.arcsin_one]
      field_simp
      ring
    rw [Prod.mk.injEq]
    constructor
    · rw [hatan]
      rw [pymod_eq_self (by norm_num) (le_refl 0) (by norm_num)]
    · exact hasind
  refine ⟨hres, hdd, habs, ?_⟩
  unfold rdegreeLin
  rw [hres]
  rw [show (([getldc 45 45, getldc 135 45, getldc 225 45,
    getldc 315 45] : List V3)).length = 4 from rfl]
  rw [Option.map_some']
  rw [habs]
  norm_num

/-- Numpy float value model for the degenerate-input claim: `some x` is a
finite float, `none` a non-finite result (NaN or ±Inf).  Numpy produces such
values silently (with at most a runtime warning), it does not raise. -/
def NpF := Option ℝ

/-- Numpy float division: division by zero yields a non-finite value
(NaN for `0/0`, ±Inf otherwise) instead of raising. -/
noncomputable def npDiv : NpF → NpF → NpF
  | some a, some b => if b = 0 then none else some (a / b)
  | _, _ => none

/-- Numpy float multiplication; non-finite operands propagate. -/
def npMul : NpF → NpF → NpF
  | some a, some b => some (a * b)
  | _, _ => none

/-- Numpy float addition; non-finite operands propagate. -/
def npAdd : NpF → NpF → NpF
  | some a, some b => some (a + b)
  | _, _ => none

/-- Numpy `arccos` in degrees: NaN outside `[-1, 1]`, NaN propagates. -/
noncomputable def npAcosd : NpF → NpF
  | some a => if a < -1 ∨ 1 < a then none else some (Real.arccos a * 180 / π)
  | none => none

/-- `Vec3.getuv` under the numpy float model: `self / abs(self)`
component-wise. -/
noncomputable def getuvN (v : V3) : NpF × NpF × NpF :=
  (npDiv (some v.x) (some (abs3 v)),
   npDiv (some v.y) (some (abs3 v)),
   npDiv (some v.z) (some (abs3 v)))

/-- Numpy dot product of two possibly non-finite component triples. -/
noncomputable def dotN (a b : NpF × NpF × NpF) : NpF :=
  npAdd (npAdd (npMul a.1 b.1) (npMul a.2.1 b.2.1)) (npMul a.2.2 b.2.2)

/-- `Vec3.angle` under the numpy float model:
`acosd(np.dot(self.getuv(), other.getuv()))`. -/
noncomputable def angleN (u v : V3) : NpF :=
  npAcosd (dotN (getuvN u) (getuvN v))

lemma getuvN_zero : getuvN v3zero = (none, none, none) := by
  unfold getuvN npDiv
  rw [abs3_v3zero]
  simp [v3zero]

lemma angleN_zero_right (u : V3) : angleN u v3zero = none := by
  unfold angleN
  rw [getuvN_zero]
  rcases h : getuvN u with ⟨a, b, c⟩
  unfold dotN npMul
  rcases a with _ | av <;> rcases b with _ | bv <;> rcases c with _ | cv <;>
    simp [npAdd, npAcosd]

/-- Counterexample to claim C9: at the concrete zero-vector input, `getuv`
yields a triple of non-finite (NaN) components and `angle` with a zero-length
operand yields NaN — the numpy code silently returns non-finite values, it
does not raise an error. -/
theorem zero_vector_ops_return_nan :
    getuvN v3zero = (none, none, none) ∧ angleN ⟨1, 0, 0⟩ v3zero = none :=
  ⟨getuvN_zero, angleN_zero_right ⟨1, 0, 0⟩⟩

/-- Amended claim C9: normalizing the zero vector returns a vector of NaN
components and `Vec3.angle` with a zero-length operand returns NaN, silently
(no division-by-zero error is raised by the numpy array operations). -/
theorem zero_vector_ops_nan_all :
    getuvN v3zero = (none, none, none) ∧
    ∀ u : V3, angleN u v3zero = none :=
  ⟨getuvN_zero, angleN_zero_right⟩

/-- Wedge `Lin.__pow__` with a vector argument: `super().cross(other)` then
`.asfol()` — the cast keeps the components and retypes them as a foliation. -/
def linPow (a b : V3) : V3 := cross3 a b

/-- The method `Lin.cross` as written in the source: it returns
`Vec3(np.cross(self, other)).asfol` without the call parentheses, i.e. the
bound `asfol` method of the cross-product vector — a function value, not a
foliation.  Applying the returned function performs the deferred cast. -/
def linCrossMethod (a b : V3) : Unit → V3 := fun _ => cross3 a b

/-- Axial angle `Fol.angle` (also `Lin.angle`):
`acosd(abs(np.dot(self.getuv(), other.getuv())))`. -/
noncomputable def folAngle (a b : V3) : ℝ := acosd |dot3 (getuv a) (getuv b)|

lemma acosd_zero : acosd 0 = 90 := by
  unfold acosd
  rw [Real.arccos_zero]
  field_simp
  ring

lemma dot3_getuv (a b : V3) :
    dot3 (getuv a) (getuv b) = (abs3 a)⁻¹ * ((abs3 b)⁻¹ * dot3 a b) := by
  unfold getuv smul3 dot3
  ring

/-- Claim C7 (the part the code implements correctly): the wedge operator
`l1 ** l2` on lineations yields the foliation whose components are the
vector cross product of `l1` and `l2`, and that foliation makes a 90 degree
angle with each of the two lineations; the `Lin.cross` method returns the
un-called bound `asfol` method, whose application gives the same vector. -/
theorem lin_wedge_orthogonal (l1 l2 : V3) (h1 : abs3 l1 ≠ 0)
    (h2 : abs3 l2 ≠ 0) (hc : abs3 (cross3 l1 l2) ≠ 0) :
    linPow l1 l2 = cross3 l1 l2 ∧
    folAngle (linPow l1 l2) l1 = 90 ∧
    folAngle (linPow l1 l2) l2 = 90 ∧
    linCrossMethod l1 l2 () = linPow l1 l2 := by
  refine ⟨rfl, ?_, ?_, rfl⟩
  · unfold linPow folAngle
    rw [dot3_getuv, show dot3 (cross3 l1 l2) l1 = 0 by unfold dot3 cross3; ring]
    rw [mul_zero, mul_zero, abs_zero, acosd_zero]
  · unfold linPow folAngle
    rw [dot3_getuv, show dot3 (cross3 l1 l2) l2 = 0 by unfold dot3 cross3; ring]
    rw [mul_zero, mul_zero, abs_zero, acosd_zero]

/-- Witness for `lin_wedge_orthogonal` at `Lin (0,0) = (1,0,0)` and
`Lin (90,0) = (0,1,0)`, whose cross product is `(0,0,1)`. -/
theorem lin_wedge_orthogonal_witness :
    abs3 ⟨1, 0, 0⟩ ≠ 0 ∧ abs3 ⟨0, 1, 0⟩ ≠ 0 ∧
    abs3 (cross3 ⟨1, 0, 0⟩ ⟨0, 1, 0⟩) ≠ 0 ∧
    folAngle (linPow ⟨1, 0, 0⟩ ⟨0, 1, 0⟩) ⟨1, 0, 0⟩ = 90 := by
  have hx : abs3 (⟨1, 0, 0⟩ : V3) = 1 := by unfold abs3 dot3; norm_num
  have hy : abs3 (⟨0, 1, 0⟩ : V3) = 1 := by unfold abs3 dot3; norm_num
  have hcr : cross3 ⟨1, 0, 0⟩ ⟨0, 1, 0⟩ = ⟨0, 0, 1⟩ := by
    unfold cross3; norm_num
  have hz : abs3 (cross3 ⟨1, 0, 0⟩ ⟨0, 1, 0⟩) = 1 := by
    rw [hcr]; unfold abs3 dot3; norm_num
  refine ⟨by rw [hx]; norm_num, by rw [hy]; norm_num, by rw [hz]; norm_num, ?_⟩
  exact (lin_wedge_orthogonal ⟨1, 0, 0⟩ ⟨0, 1, 0⟩ (by rw [hx]; norm_num)
    (by rw [hy]; norm_num) (by rw [hz]; norm_num)).2.1

/-- Modelled from the spec: `Vector3.normalized` — the module
`apsg/math/_vector.py` used by `feature/_container.py` is not among the
sources; §4.1 of the spec defines `normalized` as `self` divided by its
magnitude, failing on a zero vector (the zero case is excluded by hypotheses
wherever this operation is relied upon). -/
noncomputable def normalized (v : V3) : V3 := smul3 (abs3 v)⁻¹ v

/-- Python `sum(self)` over a `Vector3Set` as used by `Vector3Set.R()`:
component-wise vector addition folded from zero. -/
def Rsum (l : List V3) : V3 := l.foldl add3 v3zero

/-- Result record of `Vector3Set.fisher_statistics`; `k = none` models the
default `np.inf` of the perfectly concentrated case. -/
structure FisherStats where
  k : Option ℝ
  a95 : ℝ
  csd : ℝ

open Classical in
/-- `Vector3Set.fisher_statistics`: with `N` the element count and `R` the
length of the resultant of the normalized elements, returns the defaults
`(inf, 0, 0)` when `N == R` and otherwise `k = (N-1)/(N-R)`,
`csd = 81/sqrt(k)`, `a95 = acosd(1 - ((N-R)/R)*(20^(1/(N-1)) - 1))`. -/
noncomputable def fisher_statistics (l : List V3) : FisherStats :=
  let N : ℝ := l.length
  let R : ℝ := abs3 (Rsum (l.map normalized))
  if N ≠ R then
    { k := some ((N - 1) / (N - R)),
      a95 := acosd (1 - ((N - R) / R) * ((20:ℝ) ^ ((1:ℝ) / (N - 1)) - 1)),
      csd := 81 / Real.sqrt ((N - 1) / (N - R)) }
  else { k := none, a95 := 0, csd := 0 }

lemma normalized_of_abs1 {v : V3} (h : abs3 v = 1) : normalized v = v :=
  getuv_of_abs1 h

lemma foldl_add3_replicate (n : ℕ) (c v : V3) :
    List.foldl add3 c (List.replicate n v) = add3 c (smul3 (n : ℝ) v) := by
  induction n generalizing c with
  | zero =>
      simp only [List.replicate, List.foldl, Nat.cast_zero, smul3, add3]
      simp
  | succ m ih =>
      rw [List.replicate_succ, List.foldl_cons, ih]
      simp only [add3, smul3, V3.mk.injEq]
      push_cast
      refine ⟨by ring, by ring, by ring⟩

/-- Claim C4: for a feature set of `N ≥ 2` nonzero elements,
`fisher_statistics` returns the closed-form Fisher estimators whenever
`R ≠ N`, and for `N` identical unit vectors (where `R = N`) it returns
`k = inf`, `a95 = 0`, `csd = 0`. -/
theorem fisher_statistics_spec (l : List V3) (h2 : 2 ≤ l.length)
    (hnz : ∀ v ∈ l, abs3 v ≠ 0) :
    ((l.length : ℝ) ≠ abs3 (Rsum (l.map normalized)) →
      fisher_statistics l =
        { k := some (((l.length : ℝ) - 1) /
            (l.length - abs3 (Rsum (l.map normalized)))),
          a95 := acosd (1 -
            ((l.length - abs3 (Rsum (l.map normalized))) /
              abs3 (Rsum (l.map normalized))) *
            ((20:ℝ) ^ ((1:ℝ) / (l.length - 1)) - 1)),
          csd := 81 / Real.sqrt (((l.length : ℝ) - 1) /
            (l.length - abs3 (Rsum (l.map normalized)))) }) ∧
    (∀ v : V3, abs3 v = 1 → l = List.replicate l.length v →
      fisher_statistics l = { k := none, a95 := 0, csd := 0 }) := by
  constructor
  · intro hR
    simp only [fisher_statistics]
    rw [if_pos hR]
  · intro v hv hrep
    have hRN : abs3 (Rsum (l.map normalized)) = (l.length : ℝ) := by
      conv_lhs => rw [hrep]
      rw [List.map_replicate, normalized_of_abs1 hv]
      unfold Rsum
      rw [foldl_add3_replicate]
      have hz : add3 v3zero (smul3 ((l.length : ℕ) : ℝ) v)
          = smul3 ((l.length : ℕ) : ℝ) v := by
        simp only [add3, smul3, v3zero]
        simp
      rw [hz, abs3_smul, hv, mul_one,
        abs_of_nonneg (by positivity : (0:ℝ) ≤ ((l.length : ℕ) : ℝ))]
    simp only [fisher_statistics]
    rw [if_neg (not_not_intro hRN.symm)]

/-- Witness for `fisher_statistics_spec` at the two-element set
`[(1,0,0), (0,1,0)]`, whose normalized resultant has length `sqrt 2 ≠ 2`. -/
theorem fisher_statistics_spec_witness :
    2 ≤ ([⟨1, 0, 0⟩, ⟨0, 1, 0⟩] : List V3).length ∧
    fisher_statistics [⟨1, 0, 0⟩, ⟨0, 1, 0⟩] =
      { k := some ((((([⟨1, 0, 0⟩, ⟨0, 1, 0⟩] : List V3)).length : ℝ) - 1) /
          ((([⟨1, 0, 0⟩, ⟨0, 1, 0⟩] : List V3)).length -
            abs3 (Rsum ((([⟨1, 0, 0⟩, ⟨0, 1, 0⟩] : List V3)).map normalized)))),
        a95 := acosd (1 -
          (((([⟨1, 0, 0⟩, ⟨0, 1, 0⟩] : List V3)).length -
              abs3 (Rsum ((([⟨1, 0, 0⟩, ⟨0, 1, 0⟩] : List V3)).map normalized))) /
            abs3 (Rsum ((([⟨1, 0, 0⟩, ⟨0, 1, 0⟩] : List V3)).map normalized))) *
          ((20:ℝ) ^ ((1:ℝ) /
            ((([⟨1, 0, 0⟩, ⟨0, 1, 0⟩] : List V3)).length - 1)) - 1)),
        csd := 81 / Real.sqrt
          ((((([⟨1, 0, 0⟩, ⟨0, 1, 0⟩] : List V3)).length : ℝ) - 1) /
            ((([⟨1, 0, 0⟩, ⟨0, 1, 0⟩] : List V3)).length -
              abs3 (Rsum ((([⟨1, 0, 0⟩, ⟨0, 1, 0⟩] : List V3)).map normalized)))) } := by
  have hx : abs3 (⟨1, 0, 0⟩ : V3) = 1 := by unfold abs3 dot3; norm_num
  have hy : abs3 (⟨0, 1, 0⟩ : V3) = 1 := by unfold abs3 dot3; norm_num
  have hmap : (([⟨1, 0, 0⟩, ⟨0, 1, 0⟩] : List V3)).map normalized
      = [⟨1, 0, 0⟩, ⟨0, 1, 0⟩] := by
    simp only [List.map_cons, List.map_nil, normalized_of_abs1 hx,
      normalized_of_abs1 hy]
  have hsum : Rsum ([⟨1, 0, 0⟩, ⟨0, 1, 0⟩] : List V3) = ⟨1, 1, 0⟩ := by
    unfold Rsum
    simp only [List.foldl_cons, List.foldl_nil, add3, v3zero]
    norm_num
  have hR : abs3 (Rsum ((([⟨1, 0, 0⟩, ⟨0, 1, 0⟩] : List V3)).map normalized))
      = Real.sqrt 2 := by
    rw [hmap, hsum]
    unfold abs3 dot3
    norm_num
  have h2 : Real.sqrt 2 * Real.sqrt 2 = 2 := Real.mul_self_sqrt (by norm_num)
  have hneq : ((([⟨1, 0, 0⟩, ⟨0, 1, 0⟩] : List V3)).length : ℝ)
      ≠ abs3 (Rsum ((([⟨1, 0, 0⟩, ⟨0, 1, 0⟩] : List V3)).map normalized)) := by
    rw [hR]
    intro h
    rw [show ((([⟨1, 0, 0⟩, ⟨0, 1, 0⟩] : List V3)).length : ℝ) = 2 by norm_num]
      at h
    rw [← h] at h2
    norm_num at h2
  refine ⟨by norm_num, ?_⟩
  exact (fisher_statistics_spec [⟨1, 0, 0⟩, ⟨0, 1, 0⟩] (by norm_num)
    (by
      intro u hu
      simp only [List.mem_cons, List.not_mem_nil, or_false] at hu
      rcases hu with h | h
      · rw [h, hx]; norm_num
      · rw [h, hy]; norm_num)).1 hneq

/-- Components of a `Vec3` as a `Fin 3`-indexed family (the numpy row). -/
def cmp3 (v : V3) : Fin 3 → ℝ := ![v.x, v.y, v.z]

/-- Orientation tensor `Ortensor.M`: `np.dot(np.array(d).T, np.array(d))`,
the sum over the dataset of the outer products `v vᵀ`. -/
def Mten (d : List V3) : Matrix (Fin 3) (Fin 3) ℝ :=
  (d.map (fun v => Matrix.of fun i j => cmp3 v i * cmp3 v j)).sum

/-- One comparator of the descending sort applied to (eigenvalue,
eigenvector) items, modelling the reordering `np.argsort(vc)[::-1]` that
`Ortensor.__init__` applies to `np.linalg.eig` output. -/
noncomputable def sortPairDesc (p q : ℝ × (Fin 3 → ℝ)) :
    (ℝ × (Fin 3 → ℝ)) × (ℝ × (Fin 3 → ℝ)) :=
  if p.1 < q.1 then (q, p) else (p, q)

/-- Three-element descending sorting network for (eigenvalue, eigenvector)
items; `np.linalg.eig` returns the eigenpairs in unspecified order and
`Ortensor.__init__` sorts the eigenvalues descending, carrying the matching
eigenvectors along. -/
noncomputable def sort3 (p q r : ℝ × (Fin 3 → ℝ)) :
    (ℝ × (Fin 3 → ℝ)) × (ℝ × (Fin 3 → ℝ)) × (ℝ × (Fin 3 → ℝ)) :=
  let s1 := sortPairDesc p q
  let s2 := sortPairDesc s1.2 r
  let s3 := sortPairDesc s1.1 s2.1
  (s3.1, s3.2, s2.2)

lemma sort3_sorted (p q r : ℝ × (Fin 3 → ℝ)) :
    (sort3 p q r).2.1.1 ≤ (sort3 p q r).1.1 ∧
    (sort3 p q r).2.2.1 ≤ (sort3 p q r).2.1.1 := by
  simp only [sort3, sortPairDesc]
  split_ifs <;> dsimp only <;> constructor <;> linarith

lemma sort3_mem (p q r : ℝ × (Fin 3 → ℝ)) :
    ((sort3 p q r).1 = p ∨ (sort3 p q r).1 = q ∨ (sort3 p q r).1 = r) ∧
    ((sort3 p q r).2.1 = p ∨ (sort3 p q r).2.1 = q ∨ (sort3 p q r).2.1 = r) ∧
    ((sort3 p q r).2.2 = p ∨ (sort3 p q r).2.2 = q ∨ (sort3 p q r).2.2 = r) := by
  simp only [sort3, sortPairDesc]
  split_ifs <;> dsimp only <;> tauto

lemma sort3_sum (p q r : ℝ × (Fin 3 → ℝ)) :
    (sort3 p q r).1.1 + (sort3 p q r).2.1.1 + (sort3 p q r).2.2.1
      = p.1 + q.1 + r.1 := by
  simp only [sort3, sortPairDesc]
  split_ifs <;> dsimp only <;> ring

lemma Mten_nil : Mten [] = 0 := by
  simp [Mten]

lemma Mten_cons (v : V3) (d : List V3) :
    Mten (v :: d) = (Matrix.of fun i j => cmp3 v i * cmp3 v j) + Mten d := by
  simp [Mten]

lemma outer_quadform (v : V3) (x : Fin 3 → ℝ) :
    Matrix.dotProduct x ((Matrix.of fun i j => cmp3 v i * cmp3 v j).mulVec x)
      = (v.x * x 0 + v.y * x 1 + v.z * x 2) ^ 2 := by
  simp [Matrix.mulVec, Matrix.dotProduct, Fin.sum_univ_three, cmp3]
  ring

lemma quadform_nonneg (d : List V3) (x : Fin 3 → ℝ) :
    0 ≤ Matrix.dotProduct x ((Mten d).mulVec x) := by
  induction d with
  | nil =>
      rw [Mten_nil]
      simp
  | cons v t ih =>
      rw [Mten_cons, Matrix.add_mulVec, Matrix.dotProduct_add, outer_quadform]
      have := sq_nonneg (v.x * x 0 + v.y * x 1 + v.z * x 2)
      linarith

lemma trace_Mten (d : List V3) :
    (Mten d).trace = (d.map (fun v => dot3 v v)).sum := by
  induction d with
  | nil =>
      rw [Mten_nil]
      simp
  | cons v t ih =>
      rw [Mten_cons, Matrix.trace_add, ih]
      simp only [List.map_cons, List.sum_cons]
      congr 1
      simp [Matrix.trace, Matrix.diag, Fin.sum_univ_three, cmp3, dot3]

lemma trace_Mten_units {d : List V3} (hu : ∀ v ∈ d, abs3 v = 1) :
    (Mten d).trace = d.length := by
  rw [trace_Mten]
  induction d with
  | nil => simp
  | cons v t ih =>
      simp only [List.map_cons, List.sum_cons, List.length_cons]
      have hv : dot3 v v = 1 := by
        have h := hu v (List.mem_cons_self v t)
        unfold abs3 at h
        have := Real.sq_sqrt (dot3_self_nonneg v)
        rw [h] at this
        nlinarith
      rw [hv, ih (fun w hw => hu w (List.mem_cons_of_mem v hw))]
      push_cast
      ring

lemma eig_sum_eq_trace (d : List V3) (vc : Fin 3 → ℝ) (vv : Fin 3 → Fin 3 → ℝ)
    (heig : ∀ i, (Mten d).mulVec (vv i) = vc i • vv i)
    (horth : ∀ i j, Matrix.dotProduct (vv i) (vv j)
      = if i = j then 1 else 0) :
    vc 0 + vc 1 + vc 2 = (Mten d).trace := by
  set P : Matrix (Fin 3) (Fin 3) ℝ := Matrix.of (fun i j => vv i j) with hP
  have hPPt : P * P.transpose = 1 := by
    ext i j
    rw [Matrix.mul_apply, Matrix.one_apply]
    have := horth i j
    simpa [hP, Matrix.transpose_apply, Matrix.dotProduct] using this
  have hPtP : P.transpose * P = 1 := Matrix.mul_eq_one_comm.mp hPPt
  have hMP : Mten d * P.transpose = P.transpose * Matrix.diagonal vc := by
    ext i j
    rw [Matrix.mul_apply]
    have hcol : ∑ k, Mten d i k * P.transpose k j
        = ((Mten d).mulVec (vv j)) i := by
      simp [Matrix.mulVec, Matrix.dotProduct, hP, Matrix.transpose_apply]
    rw [hcol, heig j, Matrix.mul_diagonal]
    simp [hP, Matrix.transpose_apply]
    ring
  symm
  calc (Mten d).trace
      = (Mten d * (P.transpose * P)).trace := by rw [hPtP, Matrix.mul_one]
    _ = ((Mten d * P.transpose) * P).trace := by rw [Matrix.mul_assoc]
    _ = ((P.transpose * Matrix.diagonal vc) * P).trace := by rw [hMP]
    _ = ((Matrix.diagonal vc * P) * P.transpose).trace := by
          rw [Matrix.mul_assoc, Matrix.trace_mul_comm, Matrix.mul_assoc]
    _ = (Matrix.diagonal vc * (P * P.transpose)).trace := by
          rw [Matrix.mul_assoc]
    _ = (Matrix.diagonal vc).trace := by rw [hPPt, Matrix.mul_one]
    _ = vc 0 + vc 1 + vc 2 := by
          simp [Matrix.trace_diagonal, Fin.sum_univ_three]

lemma eig_nonneg (d : List V3) (vc : Fin 3 → ℝ) (vv : Fin 3 → Fin 3 → ℝ)
    (heig : ∀ i, (Mten d).mulVec (vv i) = vc i • vv i)
    (horth : ∀ i j, Matrix.dotProduct (vv i) (vv j)
      = if i = j then 1 else 0) (i : Fin 3) :
    0 ≤ vc i := by
  have hq := quadform_nonneg d (vv i)
  rw [heig i] at hq
  have hd : Matrix.dotProduct (vv i) (vc i • vv i)
      = vc i * Matrix.dotProduct (vv i) (vv i) := by
    simp [Matrix.dotProduct, Finset.mul_sum]
    congr 1
    funext k
    ring
  rw [hd, horth i i] at hq
  simpa using hq

/-- Claim C6: for a non-empty dataset of unit vectors, the `Ortensor` holds
the eigenvalues of `M = sum of v vᵀ` sorted descending with the eigenvectors
carried along (each sorted slot is still an eigenpair of `M`), and the three
eigenvalues normalized by the element count are non-negative and sum to 1.
The unordered eigen-decomposition `(vc, vv)` returned by `np.linalg.eig` is
taken as a hypothesis (eigen-equations plus orthonormality, which hold for
the symmetric matrix `M`). -/
theorem ortensor_eigen (d : List V3) (hne : d ≠ []) (hu : ∀ v ∈ d, abs3 v = 1)
    (vc : Fin 3 → ℝ) (vv : Fin 3 → Fin 3 → ℝ)
    (heig : ∀ i, (Mten d).mulVec (vv i) = vc i • vv i)
    (horth : ∀ i j, Matrix.dotProduct (vv i) (vv j) = if i = j then 1 else 0)
    (s : (ℝ × (Fin 3 → ℝ)) × (ℝ × (Fin 3 → ℝ)) × (ℝ × (Fin 3 → ℝ)))
    (hs : s = sort3 (vc 0, vv 0) (vc 1, vv 1) (vc 2, vv 2)) :
    (s.2.1.1 ≤ s.1.1 ∧ s.2.2.1 ≤ s.2.1.1) ∧
    ((Mten d).mulVec s.1.2 = s.1.1 • s.1.2 ∧
     (Mten d).mulVec s.2.1.2 = s.2.1.1 • s.2.1.2 ∧
     (Mten d).mulVec s.2.2.2 = s.2.2.1 • s.2.2.2) ∧
    (0 ≤ s.1.1 / d.length ∧ 0 ≤ s.2.1.1 / d.length ∧
     0 ≤ s.2.2.1 / d.length) ∧
    s.1.1 / d.length + s.2.1.1 / d.length + s.2.2.1 / d.length = 1 := by
  subst hs
  have hmem := sort3_mem (vc 0, vv 0) (vc 1, vv 1) (vc 2, vv 2)
  refine ⟨sort3_sorted _ _ _, ?_, ?_, ?_⟩
  · refine ⟨?_, ?_, ?_⟩
    · rcases hmem.1 with h | h | h <;> rw [h]
      · exact heig 0
      · exact heig 1
      · exact heig 2
    · rcases hmem.2.1 with h | h | h <;> rw [h]
      · exact heig 0
      · exact heig 1
      · exact heig 2
    · rcases hmem.2.2 with h | h | h <;> rw [h]
      · exact heig 0
      · exact heig 1
      · exact heig 2
  · refine ⟨?_, ?_, ?_⟩
    · rcases hmem.1 with h | h | h <;> rw [h] <;>
        exact div_nonneg (eig_nonneg d vc vv heig horth _) (Nat.cast_nonneg _)
    · rcases hmem.2.1 with h | h | h <;> rw [h] <;>
        exact div_nonneg (eig_nonneg d vc vv heig horth _) (Nat.cast_nonneg _)
    · rcases hmem.2.2 with h | h | h <;> rw [h] <;>
        exact div_nonneg (eig_nonneg d vc vv heig horth _) (Nat.cast_nonneg _)
  · have h3 := sort3_sum (vc 0, vv 0) (vc 1, vv 1) (vc 2, vv 2)
    have htr := eig_sum_eq_trace d vc vv heig horth
    have hlen := trace_Mten_units hu
    have hpos : 0 < d.length := List.length_pos.mpr hne
    have hcnz : ((d.length : ℕ) : ℝ) ≠ 0 := by
      exact_mod_cast hpos.ne'
    rw [div_add_div_same, div_add_div_same, h3]
    dsimp only at htr ⊢
    rw [htr, hlen]
    exact div_self hcnz

/-- Witness for `ortensor_eigen` at the single unit vector `(1,0,0)` with
the standard-basis eigen-decomposition of its orientation tensor. -/
theorem ortensor_eigen_witness :
    ((sort3 ((1:ℝ), ![(1:ℝ), 0, 0]) (0, ![(0:ℝ), 1, 0])
        (0, ![(0:ℝ), 0, 1])).2.1.1
      ≤ (sort3 ((1:ℝ), ![(1:ℝ), 0, 0]) (0, ![(0:ℝ), 1, 0])
        (0, ![(0:ℝ), 0, 1])).1.1) ∧
    (sort3 ((1:ℝ), ![(1:ℝ), 0, 0]) (0, ![(0:ℝ), 1, 0])
        (0, ![(0:ℝ), 0, 1])).1.1 / (([⟨1, 0, 0⟩] : List V3)).length +
      (sort3 ((1:ℝ), ![(1:ℝ), 0, 0]) (0, ![(0:ℝ), 1, 0])
        (0, ![(0:ℝ), 0, 1])).2.1.1 / (([⟨1, 0, 0⟩] : List V3)).length +
      (sort3 ((1:ℝ), ![(1:ℝ), 0, 0]) (0, ![(0:ℝ), 1, 0])
        (0, ![(0:ℝ), 0, 1])).2.2.1 / (([⟨1, 0, 0⟩] : List V3)).length = 1 := by
  have habs : abs3 (⟨1, 0, 0⟩ : V3) = 1 := by unfold abs3 dot3; norm_num
  have heig : ∀ i : Fin 3,
      (Mten [⟨1, 0, 0⟩]).mulVec (![![(1:ℝ), 0, 0], ![0, 1, 0], ![0, 0, 1]] i)
        = (![(1:ℝ), 0, 0] i) •
          (![![(1:ℝ), 0, 0], ![0, 1, 0], ![0, 0, 1]] i) := by
    intro i
    funext j
    fin_cases i <;> fin_cases j <;>
      simp [Mten, cmp3, Matrix.mulVec, Matrix.dotProduct, Fin.sum_univ_three]
  have horth : ∀ i j : Fin 3,
      Matrix.dotProduct (![![(1:ℝ), 0, 0], ![0, 1, 0], ![0, 0, 1]] i)
        (![![(1:ℝ), 0, 0], ![0, 1, 0], ![0, 0, 1]] j)
        = if i = j then 1 else 0 := by
    intro i j
    fin_cases i <;> fin_cases j <;>
      simp [Matrix.dotProduct, Fin.sum_univ_three]
  have h := ortensor_eigen [⟨1, 0, 0⟩] (by simp)
    (by
      intro u hu
      simp only [List.mem_singleton] at hu
      rw [hu, habs])
    ![(1:ℝ), 0, 0] ![![(1:ℝ), 0, 0], ![0, 1, 0], ![0, 0, 1]]
    (by
      intro i
      have := heig i
      simpa using this)
    horth
    (sort3 ((1:ℝ), ![(1:ℝ), 0, 0]) (0, ![(0:ℝ), 1, 0]) (0, ![(0:ℝ), 0, 1]))
    (by norm_num)
  exact ⟨h.1.1, h.2.2.2⟩

/-- `Ortensor.strength` as computed by the source: with `(e1, e2, e3)` the
descending-sorted eigenvalues each divided by the element count `n`
(`e1, e2, e3 = self.vals / self.n`), the stored Woodcock strength is
`np.log(e3 / e1)`. -/
noncomputable def ortStrength (vals : ℝ × ℝ × ℝ) (n : ℕ) : ℝ :=
  Real.log ((vals.2.2 / n) / (vals.1 / n))

/-- Claim C8 is contradicted by the code: on the four unit vectors
`(1,0,0), (1,0,0), (0,1,0), (0,0,1)` the orientation tensor is
`diag(2,1,1)`, the sorted eigenvalues are `(2,1,1)` and the stored strength
is `log(e3/e1) = log(1/2) = -log 2 < 0`, whereas the claimed Woodcock value
`ln(e1/e3)` is `log 2 > 0`. -/
theorem woodcock_strength_sign :
    (∀ i : Fin 3,
      (Mten [⟨1, 0, 0⟩, ⟨1, 0, 0⟩, ⟨0, 1, 0⟩, ⟨0, 0, 1⟩]).mulVec
          (![![(1:ℝ), 0, 0], ![0, 1, 0], ![0, 0, 1]] i)
        = (![(2:ℝ), 1, 1] i) •
          (![![(1:ℝ), 0, 0], ![0, 1, 0], ![0, 0, 1]] i)) ∧
    sort3 ((2:ℝ), ![(1:ℝ), 0, 0]) (1, ![(0:ℝ), 1, 0]) (1, ![(0:ℝ), 0, 1])
      = ((2, ![(1:ℝ), 0, 0]), (1, ![(0:ℝ), 1, 0]), (1, ![(0:ℝ), 0, 1])) ∧
    ortStrength (2, 1, 1) 4 = -Real.log 2 ∧
    -Real.log 2 < 0 ∧
    Real.log (((2:ℝ) / 4) / ((1:ℝ) / 4)) = Real.log 2 ∧
    0 < Real.log 2 := by
  have hlog2 : (0:ℝ) < Real.log 2 := Real.log_pos (by norm_num)
  refine ⟨?_, ?_, ?_, by linarith, ?_, hlog2⟩
  · intro i
    funext j
    fin_cases i <;> fin_cases j <;>
      simp [Mten, cmp3, Matrix.mulVec, Matrix.dotProduct, Fin.sum_univ_three,
        Matrix.vecHead, Matrix.vecTail] <;>
      norm_num
  · simp only [sort3, sortPairDesc]
    norm_num
  · unfold ortStrength
    rw [show ((2:ℝ), (1:ℝ), (1:ℝ)).2.2 / ((4:ℕ):ℝ) /
        (((2:ℝ), (1:ℝ), (1:ℝ)).1 / ((4:ℕ):ℝ)) = 2⁻¹ by norm_num]
    exact Real.log_inv 2
  · rw [show ((2:ℝ) / 4) / ((1:ℝ) / 4) = 2 by norm_num]

/-- Angle formula of the spec-modelled `Vector3.angle`:
`acos(clamp(dot(norm(self), norm(other)), -1, 1))` in degrees. -/
noncomputable def angVal (a b : V3) : ℝ :=
  acosd (max (-1) (min 1 (dot3 (normalized a) (normalized b))))

open Classical in
/-- Modelled from the spec: `Vector3.angle` — the module
`apsg/math/_vector.py` used by `feature/_container.py` is not among the
sources; §4.1 defines the angle as `acos(clamp(dot(norm(self), norm(other)),
-1, 1))` in degrees, with normalization of a zero vector raising a defined
error (modelled by `none`). -/
noncomputable def angleO (a b : V3) : Option ℝ :=
  if abs3 a = 0 ∨ abs3 b = 0 then none else some (angVal a b)

/-- The array `v.angle(v.R())` used by `halfspace`: element-wise angles of a
list against a vector, propagating the error of any degenerate operand. -/
noncomputable def anglesTo : List V3 → V3 → Option (List ℝ)
  | [], _ => some []
  | e :: t, r =>
      match angleO e r, anglesTo t r with
      | some a, some l => some (a :: l)
      | _, _ => none

open Classical in
/-- The `for ix, do in enumerate(ang > 90)` pass of `halfspace`: walk the
pass-start angle list, negate the element at the current index when its
angle exceeds 90, and after every index recompute `v.angle(v.R())` (the
`alldone` update of the source), propagating its failure. -/
noncomputable def hsInner : List V3 → List ℝ → Nat → Option (List V3)
  | c, [], _ => some c
  | c, a :: rest, ix =>
      let c1 := if 90 < a then c.set ix (neg3 (c.getD ix v3zero)) else c
      match anglesTo c1 (Rsum c1) with
      | none => none
      | some _ => hsInner c1 rest (ix + 1)

/-- Result of running `halfspace` with a fuel bound on the `while`
iterations: a normal return, an error raised by an angle computation, or
fuel exhaustion. -/
inductive HsRes where
  | ok (l : List V3)
  | err
  | out

open Classical in
/-- The `while not alldone` loop of `Vector3Set.halfspace`: compute the
angles of all elements to the resultant, return when all are at most 90,
otherwise run one flip pass and repeat. -/
noncomputable def hsRun : Nat → List V3 → HsRes
  | 0, _ => .out
  | fuel + 1, vd =>
      match anglesTo vd (Rsum vd) with
      | none => .err
      | some ang =>
          if ∀ a ∈ ang, a ≤ 90 then .ok vd
          else
            match hsInner vd ang 0 with
            | none => .err
            | some vd1 => hsRun fuel vd1

lemma Rsum_antipodal : Rsum [⟨1, 0, 0⟩, ⟨-1, 0, 0⟩] = v3zero := by
  unfold Rsum
  simp only [List.foldl_cons, List.foldl_nil, add3, v3zero]
  norm_num

/-- Counterexample to claim C5: on the set of the two antipodal nonzero unit
vectors `(1,0,0)` and `(-1,0,0)` the resultant is the zero vector, so the
very first angle computation of `halfspace` degenerates (spec-modelled
error; with raw numpy semantics the `while` loop never sees `alldone` true)
and no fuel ever makes `halfspace` return a result set. -/
theorem halfspace_zero_resultant_error :
    ¬ ∃ (f : ℕ) (out : List V3),
      hsRun f [⟨1, 0, 0⟩, ⟨-1, 0, 0⟩] = HsRes.ok out := by
  rintro ⟨f, out, h⟩
  have hang : anglesTo [⟨1, 0, 0⟩, ⟨-1, 0, 0⟩]
      (Rsum [⟨1, 0, 0⟩, ⟨-1, 0, 0⟩]) = none := by
    rw [Rsum_antipodal]
    unfold anglesTo angleO
    rw [if_pos (Or.inr abs3_v3zero)]
  cases f with
  | zero =>
      simp only [hsRun] at h
      exact HsRes.noConfusion h
  | succ m =>
      simp only [hsRun] at h
      rw [hang] at h
      simp at h

lemma v3eq {a b : V3} (hx : a.x = b.x) (hy : a.y = b.y) (hz : a.z = b.z) :
    a = b := by
  cases a
  cases b
  simp_all

lemma foldl_add3_eq (l : List V3) : ∀ c : V3, l.foldl add3 c = add3 c (Rsum l) := by
  induction l with
  | nil =>
      intro c
      apply v3eq <;> simp [Rsum, add3, v3zero]
  | cons v t ih =>
      intro c
      have h1 : Rsum (v :: t) = add3 (add3 v3zero v) (Rsum t) := by
        show List.foldl add3 v3zero (v :: t) = _
        simp only [List.foldl_cons]
        exact ih (add3 v3zero v)
      simp only [List.foldl_cons]
      rw [ih (add3 c v), h1]
      apply v3eq <;> simp [add3, v3zero] <;> ring

lemma Rsum_cons (v : V3) (t : List V3) : Rsum (v :: t) = add3 v (Rsum t) := by
  show List.foldl add3 v3zero (v :: t) = _
  simp only [List.foldl_cons]
  rw [foldl_add3_eq]
  apply v3eq <;> simp [add3, v3zero]

lemma Rsum_append (a b : List V3) :
    Rsum (a ++ b) = add3 (Rsum a) (Rsum b) := by
  induction a with
  | nil =>
      apply v3eq <;> simp [Rsum, add3, v3zero]
  | cons v t ih =>
      simp only [List.cons_append, Rsum_cons, ih]
      apply v3eq <;> simp [add3] <;> ring

lemma abs3_neg3 (v : V3) : abs3 (neg3 v) = abs3 v := by
  unfold abs3 dot3 neg3
  congr 1
  ring

lemma abs3_eq_zero_iff (v : V3) : abs3 v = 0 ↔ dot3 v v = 0 := by
  unfold abs3
  exact Real.sqrt_eq_zero (dot3_self_nonneg v)

/-- Squared length of the resultant: the strictly increasing potential of
the `halfspace` fixed-point iteration. -/
noncomputable def phi (l : List V3) : ℝ := dot3 (Rsum l) (Rsum l)

lemma phi_pos_of_abs3_ne {l : List V3} (h : abs3 (Rsum l) ≠ 0) : 0 < phi l := by
  have h1 := dot3_self_nonneg (Rsum l)
  have h2 : dot3 (Rsum l) (Rsum l) ≠ 0 := fun hc =>
    h ((abs3_eq_zero_iff (Rsum l)).mpr hc)
  exact lt_of_le_of_ne h1 (Ne.symm h2)

lemma abs3_ne_of_phi_pos {l : List V3} (h : 0 < phi l) :
    abs3 (Rsum l) ≠ 0 := by
  intro hc
  rw [abs3_eq_zero_iff] at hc
  unfold phi at h
  rw [hc] at h
  exact lt_irrefl 0 h

lemma acosd_le_90_iff {y : ℝ} : acosd y ≤ 90 ↔ 0 ≤ y := by
  have hπ := Real.pi_pos
  unfold acosd
  rw [div_le_iff hπ]
  constructor
  · intro h
    exact Real.arccos_le_pi_div_two.mp (by linarith)
  · intro h
    have := Real.arccos_le_pi_div_two.mpr h
    linarith

lemma clamp_nonneg_iff {x : ℝ} : 0 ≤ max (-1) (min 1 x) ↔ 0 ≤ x := by
  constructor
  · intro h
    rcases le_max_iff.mp h with h1 | h1
    · linarith
    · exact (le_min_iff.mp h1).2
  · intro h
    exact le_max_iff.mpr (Or.inr (le_min_iff.mpr ⟨zero_le_one, h⟩))

lemma normalized_eq (v : V3) : normalized v = getuv v := rfl

lemma angVal_le_90_iff {e r : V3} (he : abs3 e ≠ 0) (hr : abs3 r ≠ 0) :
    angVal e r ≤ 90 ↔ 0 ≤ dot3 e r := by
  unfold angVal
  rw [acosd_le_90_iff, clamp_nonneg_iff, normalized_eq, normalized_eq,
    dot3_getuv]
  have hepos : 0 < (abs3 e)⁻¹ :=
    inv_pos.mpr (lt_of_le_of_ne (abs3_nonneg e) (Ne.symm he))
  have hrpos : 0 < (abs3 r)⁻¹ :=
    inv_pos.mpr (lt_of_le_of_ne (abs3_nonneg r) (Ne.symm hr))
  constructor
  · intro h
    by_contra hneg
    push_neg at hneg
    have hab := mul_pos hepos hrpos
    rw [show (abs3 e)⁻¹ * ((abs3 r)⁻¹ * dot3 e r)
        = ((abs3 e)⁻¹ * (abs3 r)⁻¹) * dot3 e r by ring] at h
    nlinarith [mul_neg_of_pos_of_neg hab hneg]
  · intro h
    positivity

lemma angVal_gt_90_iff {e r : V3} (he : abs3 e ≠ 0) (hr : abs3 r ≠ 0) :
    90 < angVal e r ↔ dot3 e r < 0 := by
  constructor
  · intro h
    by_contra hc
    push_neg at hc
    exact absurd ((angVal_le_90_iff he hr).mpr hc) (not_le.mpr h)
  · intro h
    by_contra hc
    push_neg at hc
    exact absurd ((angVal_le_90_iff he hr).mp hc) (not_le.mpr h)

lemma anglesTo_eq_map {r : V3} (hr : abs3 r ≠ 0) :
    ∀ c : List V3, (∀ v ∈ c, abs3 v ≠ 0) →
      anglesTo c r = some (c.map (fun e => angVal e r)) := by
  intro c
  induction c with
  | nil => intro _; rfl
  | cons e t ih =>
      intro hc
      have he : angleO e r = some (angVal e r) := by
        unfold angleO
        rw [if_neg]
        push_neg
        exact ⟨hc e (List.mem_cons_self e t), hr⟩
      simp only [anglesTo]
      rw [he, ih (fun v hv => hc v (List.mem_cons_of_mem e hv))]
      rfl

open Classical in
/-- The flip a `halfspace` pass applies to one element: negate it when its
angle to the pass-start resultant exceeds 90 degrees, which for nonzero
operands is exactly a negative dot product with that resultant. -/
noncomputable def flipIf (r e : V3) : V3 := if dot3 e r < 0 then neg3 e else e

open Classical in
/-- Sum of the elements of `l` that a pass flips against `r`. -/
noncomputable def flipSum (r : V3) (l : List V3) : V3 :=
  Rsum (l.map (fun e => if dot3 e r < 0 then e else v3zero))

lemma dot3_comm (a b : V3) : dot3 a b = dot3 b a := by
  unfold dot3; ring

lemma dot3_add3_right (r a b : V3) :
    dot3 r (add3 a b) = dot3 r a + dot3 r b := by
  unfold dot3 add3; ring

lemma flipSum_cons (r e : V3) (t : List V3) :
    flipSum r (e :: t)
      = add3 (if dot3 e r < 0 then e else v3zero) (flipSum r t) := by
  unfold flipSum
  simp only [List.map_cons, Rsum_cons]

lemma map_flipIf_sum (r : V3) (l : List V3) :
    Rsum (l.map (flipIf r)) = sub3 (Rsum l) (smul3 2 (flipSum r l)) := by
  induction l with
  | nil =>
      apply v3eq <;> simp [Rsum, flipSum, sub3, smul3, v3zero]
  | cons e t ih =>
      simp only [List.map_cons, Rsum_cons]
      rw [ih, flipSum_cons]
      unfold flipIf
      by_cases h : dot3 e r < 0
      · rw [if_pos h, if_pos h]
        apply v3eq <;> simp [add3, sub3, smul3, neg3] <;> ring
      · rw [if_neg h, if_neg h]
        apply v3eq <;> simp [add3, sub3, smul3, v3zero] <;> ring

lemma dot3_flipSum_nonpos (r : V3) (l : List V3) :
    dot3 r (flipSum r l) ≤ 0 := by
  induction l with
  | nil =>
      unfold flipSum Rsum
      simp [dot3, v3zero]
  | cons e t ih =>
      rw [flipSum_cons, dot3_add3_right]
      by_cases h : dot3 e r < 0
      · rw [if_pos h]
        have h1 : dot3 r e < 0 := by rw [dot3_comm]; exact h
        linarith
      · rw [if_neg h]
        have h1 : dot3 r v3zero = 0 := by unfold dot3 v3zero; ring
        linarith

lemma dot3_flipSum_neg (r : V3) {l : List V3}
    (h : ∃ e ∈ l, dot3 e r < 0) : dot3 r (flipSum r l) < 0 := by
  induction l with
  | nil =>
      rcases h with ⟨e, he, _⟩
      simp at he
  | cons e t ih =>
      rw [flipSum_cons, dot3_add3_right]
      rcases h with ⟨f, hf, hfd⟩
      rcases List.mem_cons.mp hf with rfl | hft
      · rw [if_pos hfd]
        have h1 : dot3 r f < 0 := by rw [dot3_comm]; exact hfd
        have h2 := dot3_flipSum_nonpos r t
        linarith
      · have h2 : dot3 r (flipSum r t) < 0 := ih ⟨f, hft, hfd⟩
        by_cases hd : dot3 e r < 0
        · rw [if_pos hd]
          have h1 : dot3 r e < 0 := by rw [dot3_comm]; exact hd
          linarith
        · rw [if_neg hd]
          have h1 : dot3 r v3zero = 0 := by unfold dot3 v3zero; ring
          linarith

/-- State of a `halfspace` pass after its first `k` indices: the processed
prefix with the flips applied, followed by the untouched suffix. -/
noncomputable def passState (r : V3) (c : List V3) (k : ℕ) : List V3 :=
  ((c.take k).map (flipIf r)) ++ c.drop k

lemma passState_zero (r : V3) (c : List V3) : passState r c 0 = c := by
  simp [passState]

lemma passState_full (r : V3) (c : List V3) :
    passState r c c.length = c.map (flipIf r) := by
  simp [passState]

lemma passState_length (r : V3) (c : List V3) (k : ℕ) :
    (passState r c k).length = c.length := by
  simp only [passState, List.length_append, List.length_map,
    List.length_take, List.length_drop]
  omega

lemma passState_sum (r : V3) (c : List V3) (k : ℕ) :
    Rsum (passState r c k)
      = sub3 (Rsum c) (smul3 2 (flipSum r (c.take k))) := by
  unfold passState
  rw [Rsum_append, map_flipIf_sum]
  conv_rhs => rw [← List.take_append_drop k c, Rsum_append]
  apply v3eq <;> simp [add3, sub3, smul3] <;> ring

lemma phi_passState_ge (c : List V3) (k : ℕ) :
    phi c ≤ phi (passState (Rsum c) c k) := by
  unfold phi
  rw [passState_sum]
  have h1 := dot3_flipSum_nonpos (Rsum c) (c.take k)
  have h2 := dot3_self_nonneg (flipSum (Rsum c) (c.take k))
  have hexp : dot3 (sub3 (Rsum c) (smul3 2 (flipSum (Rsum c) (c.take k))))
      (sub3 (Rsum c) (smul3 2 (flipSum (Rsum c) (c.take k))))
      = dot3 (Rsum c) (Rsum c)
        - 4 * dot3 (Rsum c) (flipSum (Rsum c) (c.take k))
        + 4 * dot3 (flipSum (Rsum c) (c.take k))
            (flipSum (Rsum c) (c.take k)) := by
    unfold dot3 sub3 smul3
    ring
  rw [hexp]
  linarith

lemma phi_pass_gt {c : List V3} (h : ∃ e ∈ c, dot3 e (Rsum c) < 0) :
    phi c < phi (c.map (flipIf (Rsum c))) := by
  rw [← passState_full]
  unfold phi
  rw [passState_sum, List.take_length]
  have h1 := dot3_flipSum_neg (Rsum c) h
  have h2 := dot3_self_nonneg (flipSum (Rsum c) c)
  have hexp : dot3 (sub3 (Rsum c) (smul3 2 (flipSum (Rsum c) c)))
      (sub3 (Rsum c) (smul3 2 (flipSum (Rsum c) c)))
      = dot3 (Rsum c) (Rsum c)
        - 4 * dot3 (Rsum c) (flipSum (Rsum c) c)
        + 4 * dot3 (flipSum (Rsum c) c) (flipSum (Rsum c) c) := by
    unfold dot3 sub3 smul3
    ring
  rw [hexp]
  linarith

lemma abs3_flipIf (r e : V3) : abs3 (flipIf r e) = abs3 e := by
  unfold flipIf
  split_ifs
  · exact abs3_neg3 e
  · rfl

lemma passState_mem_abs {r : V3} {c : List V3} {k : ℕ} :
    ∀ v ∈ passState r c k, ∃ e ∈ c, abs3 v = abs3 e := by
  intro v hv
  rcases List.mem_append.mp hv with h | h
  · rcases List.mem_map.mp h with ⟨e, he, rfl⟩
    exact ⟨e, List.take_subset k c he, abs3_flipIf r e⟩
  · exact ⟨v, List.drop_subset k c h, rfl⟩

lemma set_append_index {α : Type} (A : List α) (b x : α) (C : List α) (k : ℕ)
    (hk : A.length = k) : (A ++ b :: C).set k x = A ++ x :: C := by
  subst hk
  induction A with
  | nil => rfl
  | cons a tl ih => simp [List.set, ih]

lemma getD_append_index {α : Type} (A : List α) (b : α) (C : List α) (d : α)
    (k : ℕ) (hk : A.length = k) : (A ++ b :: C).getD k d = b := by
  subst hk
  rw [List.getD_append_right _ _ _ _ (le_refl _)]
  simp

lemma hsInner_go (c0 : List V3) (r : V3) (hr : abs3 r ≠ 0)
    (hnzc : ∀ v ∈ c0, abs3 v ≠ 0)
    (hmid : ∀ j, abs3 (Rsum (passState r c0 j)) ≠ 0) :
    ∀ (m k : ℕ), k + m = c0.length →
      hsInner (passState r c0 k) ((c0.drop k).map (fun e => angVal e r)) k
        = some (passState r c0 c0.length) := by
  intro m
  induction m with
  | zero =>
      intro k hk
      have hk2 : k = c0.length := by omega
      subst hk2
      rw [List.drop_length]
      simp only [List.map_nil, hsInner]
  | succ n ih =>
      intro k hk
      have hklt : k < c0.length := by omega
      obtain ⟨a, t, hdrop⟩ : ∃ a t, c0.drop k = a :: t := by
        cases hcase : c0.drop k with
        | nil =>
            exfalso
            have hl := List.length_drop k c0
            rw [hcase] at hl
            simp at hl
            omega
        | cons x xs => exact ⟨x, xs, rfl⟩
      have hmem_a : a ∈ c0 := by
        have : a ∈ c0.drop k := by
          rw [hdrop]
          exact List.mem_cons_self a t
        exact List.drop_subset k c0 this
      have hAlen : ((c0.take k).map (flipIf r)).length = k := by
        rw [List.length_map, List.length_take]
        omega
      have htake1 : c0.take (k + 1) = c0.take k ++ [a] := by
        conv_lhs => rw [← List.take_append_drop k c0]
        rw [hdrop, List.take_append_eq_append_take]
        have h1 : (c0.take k).length = k := by
          rw [List.length_take]
          omega
        rw [List.take_all_of_le (by rw [h1]; omega), h1]
        simp
      have hdrop1 : c0.drop (k + 1) = t := by
        have h1 : List.drop 1 (List.drop k c0) = List.drop (k + 1) c0 :=
          List.drop_drop 1 k c0
        rw [hdrop] at h1
        simp only [List.drop_one, List.tail_cons] at h1
        rw [← h1]
      have hA : passState r c0 k = ((c0.take k).map (flipIf r)) ++ a :: t := by
        unfold passState
        rw [hdrop]
      have hnext : passState r c0 (k + 1)
          = ((c0.take k).map (flipIf r)) ++ flipIf r a :: t := by
        unfold passState
        rw [htake1, hdrop1, List.map_append, List.append_assoc]
        rfl
      rw [hdrop]
      simp only [List.map_cons, hsInner]
      have hC : (if 90 < angVal a r
          then (passState r c0 k).set k (neg3 ((passState r c0 k).getD k v3zero))
          else passState r c0 k) = passState r c0 (k + 1) := by
        have hgd : (passState r c0 k).getD k v3zero = a := by
          rw [hA]
          exact getD_append_index _ _ _ _ _ hAlen
        by_cases hang : 90 < angVal a r
        · rw [if_pos hang, hgd, hnext, hA, set_append_index _ _ _ _ _ hAlen]
          have hdot : dot3 a r < 0 :=
            (angVal_gt_90_iff (hnzc a hmem_a) hr).mp hang
          rw [show flipIf r a = neg3 a from by unfold flipIf; rw [if_pos hdot]]
        · rw [if_neg hang, hnext, hA]
          have hdot : ¬ dot3 a r < 0 := fun hd =>
            hang ((angVal_gt_90_iff (hnzc a hmem_a) hr).mpr hd)
          rw [show flipIf r a = a from by unfold flipIf; rw [if_neg hdot]]
      rw [hC]
      have helems : ∀ v ∈ passState r c0 (k + 1), abs3 v ≠ 0 := by
        intro v hv
        rcases passState_mem_abs v hv with ⟨e, he, heq⟩
        rw [heq]
        exact hnzc e he
      rw [anglesTo_eq_map (hmid (k + 1)) _ helems]
      have hih := ih (k + 1) (by omega)
      rw [hdrop1] at hih
      exact hih

lemma neg3_neg3 (v : V3) : neg3 (neg3 v) = v := by
  apply v3eq <;> simp [neg3]

/-- Sign pattern applied to the base set: every state reachable by the flip
passes of `halfspace` negates some subset of the original elements. -/
noncomputable def applyPat (vs : List V3) (p : Fin vs.length → Bool) :
    List V3 :=
  List.ofFn (fun i => if p i then neg3 (vs.get i) else vs.get i)

lemma applyPat_length (vs : List V3) (p : Fin vs.length → Bool) :
    (applyPat vs p).length = vs.length := by
  simp [applyPat]

lemma applyPat_false (vs : List V3) :
    applyPat vs (fun _ => false) = vs := by
  unfold applyPat
  simp only [Bool.false_eq_true, if_false]
  exact List.ofFn_get vs

lemma applyPat_mem_abs (vs : List V3) (p : Fin vs.length → Bool) :
    ∀ v ∈ applyPat vs p, ∃ e ∈ vs, abs3 v = abs3 e := by
  intro v hv
  rcases (List.mem_ofFn _ v).mp hv with ⟨i, hi⟩
  refine ⟨vs.get i, ?_, ?_⟩
  · have h := List.get_mem vs i.1 i.2
    simpa using h
  · rw [← hi]
    cases hp : p i <;> simp [hp, abs3_neg3]

lemma applyPat_step (vs : List V3) (p : Fin vs.length → Bool) (r : V3) :
    ∃ q : Fin vs.length → Bool,
      (applyPat vs p).map (flipIf r) = applyPat vs q := by
  classical
  refine ⟨fun i => if dot3 (if p i then neg3 (vs.get i) else vs.get i) r < 0
    then ! (p i) else p i, ?_⟩
  unfold applyPat
  rw [List.map_ofFn]
  congr 1
  funext i
  simp only [Function.comp]
  rcases Bool.eq_false_or_eq_true (p i) with hp | hp
  · simp only [hp, if_true, Bool.not_true]
    by_cases hd : dot3 (neg3 (vs.get i)) r < 0
    · simp only [List.get_eq_getElem] at hd
      simp [flipIf, hd, neg3_neg3]
    · simp only [List.get_eq_getElem] at hd
      simp [flipIf, hd]
  · simp only [hp, Bool.false_eq_true, if_false, Bool.not_false]
    by_cases hd : dot3 (vs.get i) r < 0
    · simp only [List.get_eq_getElem] at hd
      simp [flipIf, hd]
    · simp only [List.get_eq_getElem] at hd
      simp [flipIf, hd]

lemma hsRun_terminates (vs : List V3) (hnz : ∀ v ∈ vs, abs3 v ≠ 0) :
    ∀ (fuel : ℕ) (vd : List V3) (p : Fin vs.length → Bool),
      vd = applyPat vs p →
      abs3 (Rsum vd) ≠ 0 →
      (Finset.univ.filter (fun q : Fin vs.length → Bool =>
        phi vd < phi (applyPat vs q))).card < fuel →
      ∃ out, hsRun fuel vd = HsRes.ok out ∧ out.length = vs.length ∧
        ∃ ang, anglesTo out (Rsum out) = some ang ∧ ∀ a ∈ ang, a ≤ 90 := by
  classical
  intro fuel
  induction fuel with
  | zero =>
      intro vd p hp hR hcard
      exact absurd hcard (Nat.not_lt_zero _)
  | succ f ih =>
      intro vd p hp hR hcard
      have hvdnz : ∀ v ∈ vd, abs3 v ≠ 0 := by
        intro v hv
        rw [hp] at hv
        rcases applyPat_mem_abs vs p v hv with ⟨e, he, heq⟩
        rw [heq]
        exact hnz e he
      have hang := anglesTo_eq_map hR vd hvdnz
      simp only [hsRun]
      rw [hang]
      dsimp only
      by_cases hall : ∀ a ∈ vd.map (fun e => angVal e (Rsum vd)), a ≤ 90
      · rw [if_pos hall]
        refine ⟨vd, rfl, ?_, ⟨_, hang, hall⟩⟩
        rw [hp]
        exact applyPat_length vs p
      · rw [if_neg hall]
        push_neg at hall
        obtain ⟨aval, hamem, hagt⟩ := hall
        rcases List.mem_map.mp hamem with ⟨e, he, rfl⟩
        have hdot : dot3 e (Rsum vd) < 0 :=
          (angVal_gt_90_iff (hvdnz e he) hR).mp hagt
        have hmid : ∀ j, abs3 (Rsum (passState (Rsum vd) vd j)) ≠ 0 := by
          intro j
          apply abs3_ne_of_phi_pos
          have h1 := phi_passState_ge vd j
          have h2 := phi_pos_of_abs3_ne hR
          linarith
        have hinner := hsInner_go vd (Rsum vd) hR hvdnz hmid vd.length 0
          (by omega)
        rw [passState_zero, List.drop_zero, passState_full] at hinner
        rw [hinner]
        have hphi : phi vd < phi (vd.map (flipIf (Rsum vd))) :=
          phi_pass_gt ⟨e, he, hdot⟩
        obtain ⟨q, hq⟩ := applyPat_step vs p (Rsum vd)
        have hq2 : vd.map (flipIf (Rsum vd)) = applyPat vs q := by
          conv_lhs => rw [hp]
          rw [← hq, hp]
        have hR1 : abs3 (Rsum (vd.map (flipIf (Rsum vd)))) ≠ 0 :=
          abs3_ne_of_phi_pos (lt_trans (phi_pos_of_abs3_ne hR) hphi)
        have hcard1 : (Finset.univ.filter (fun u : Fin vs.length → Bool =>
            phi (vd.map (flipIf (Rsum vd))) < phi (applyPat vs u))).card
            < (Finset.univ.filter (fun u : Fin vs.length → Bool =>
              phi vd < phi (applyPat vs u))).card := by
          apply Finset.card_lt_card
          rw [Finset.ssubset_iff_of_subset]
          · refine ⟨q, ?_, ?_⟩
            · rw [Finset.mem_filter]
              refine ⟨Finset.mem_univ q, ?_⟩
              rw [← hq2]
              exact hphi
            · rw [Finset.mem_filter]
              push_neg
              intro
              rw [← hq2]
          · intro u hu
            rw [Finset.mem_filter] at hu ⊢
            exact ⟨hu.1, lt_trans hphi hu.2⟩
        exact ih (vd.map (flipIf (Rsum vd))) q hq2 hR1 (by omega)

/-- Amended claim C5: for every finite set of nonzero vectors whose initial
resultant is nonzero, `halfspace` terminates — fuel `2 ^ n` suffices for
the `while` loop because each pass strictly increases the squared resultant
length and the states are sign patterns over the input, of which there are
only `2 ^ n` — and the returned list has the input's length with every
element at an angle of at most 90 degrees to the returned set's resultant. -/
theorem halfspace_terminates (vs : List V3) (hnz : ∀ v ∈ vs, abs3 v ≠ 0)
    (hR : abs3 (Rsum vs) ≠ 0) :
    ∃ out : List V3, hsRun (2 ^ vs.length) vs = HsRes.ok out ∧
      out.length = vs.length ∧
      ∃ ang : List ℝ, anglesTo out (Rsum out) = some ang ∧
        ∀ a ∈ ang, a ≤ 90 := by
  classical
  apply hsRun_terminates vs hnz (2 ^ vs.length) vs (fun _ => false)
    (applyPat_false vs).symm hR
  have hsub : (Finset.univ.filter (fun q : Fin vs.length → Bool =>
      phi vs < phi (applyPat vs q))) ⊂ Finset.univ := by
    rw [Finset.ssubset_univ_iff]
    intro heq
    have hmem : (fun _ : Fin vs.length => false) ∈
        (Finset.univ.filter (fun q : Fin vs.length → Bool =>
          phi vs < phi (applyPat vs q))) := by
      rw [heq]
      exact Finset.mem_univ _
    have := (Finset.mem_filter.mp hmem).2
    rw [applyPat_false] at this
    exact lt_irrefl _ this
  have hcard := Finset.card_lt_card hsub
  rwa [Finset.card_univ, Fintype.card_fun, Fintype.card_bool,
    Fintype.card_fin] at hcard

/-- Witness for `halfspace_terminates` at the one-element set `[(1,0,0)]`. -/
theorem halfspace_terminates_witness :
    (∀ v ∈ ([⟨1, 0, 0⟩] : List V3), abs3 v ≠ 0) ∧
    abs3 (Rsum [⟨1, 0, 0⟩]) ≠ 0 ∧
    ∃ out : List V3,
      hsRun (2 ^ (([⟨1, 0, 0⟩] : List V3)).length) [⟨1, 0, 0⟩]
        = HsRes.ok out ∧
      out.length = (([⟨1, 0, 0⟩] : List V3)).length ∧
      ∃ ang : List ℝ, anglesTo out (Rsum out) = some ang ∧
        ∀ a ∈ ang, a ≤ 90 := by
  have hx : abs3 (⟨1, 0, 0⟩ : V3) = 1 := by unfold abs3 dot3; norm_num
  have hRs : Rsum [⟨1, 0, 0⟩] = ⟨1, 0, 0⟩ := by
    apply v3eq <;> simp [Rsum, add3, v3zero]
  have h1 : ∀ v ∈ ([⟨1, 0, 0⟩] : List V3), abs3 v ≠ 0 := by
    intro v hv
    simp only [List.mem_singleton] at hv
    rw [hv, hx]
    norm_num
  have h2 : abs3 (Rsum [⟨1, 0, 0⟩]) ≠ 0 := by
    rw [hRs, hx]
    norm_num
  exact ⟨h1, h2, halfspace_terminates [⟨1, 0, 0⟩] h1 h2⟩
